import Mathlib

/-!
Verification development for the ocrlab document-processing repository.

The definitions below are shallow embeddings of the Python source:
`services/chunking.py` (ChunkingService, HybridChunkingStrategy),
`services/vector_search/text_chunking.py` (TextChunker._split_text),
`database/crud.py` (update_file_status, get_failed_files) and the
queue pipeline `process_document_from_queue` in `function_app.py`.
Machine text is modelled as Lean `String` (a list of characters, as in
Python where `len` counts code points); fallible external calls are
modelled as `Option`-valued oracles.
-/

namespace OcrLab

/-! ## String helpers (models of the Python built-ins used by the source) -/

/-- Python whitespace characters relevant to `str.strip()`. -/
def isPyWs (c : Char) : Bool :=
  c = ' ' || c = '\t' || c = '\n' || c = '\r' || c = '\x0b' || c = '\x0c'

/-- Model of Python `str.strip()` on a character list. -/
def pyStripList (cs : List Char) : List Char :=
  ((cs.dropWhile isPyWs).reverse.dropWhile isPyWs).reverse

/-- Model of Python `str.strip()`. -/
def pyStrip (s : String) : String := ⟨pyStripList s.data⟩

/-- Model of Python `str.join` (`sep.join(parts)`). -/
def joinWith (sep : String) : List String → String
  | [] => ""
  | [x] => x
  | x :: y :: xs => x ++ sep ++ joinWith sep (y :: xs)

/-- Model of Python format padding `f"{s:{w}}"` (left-aligned, space fill). -/
def padRight (s : String) (w : Nat) : String :=
  s ++ ⟨List.replicate (w - s.data.length) ' '⟩

/-! ## Paragraph chunking — `ChunkingService._chunk_paragraphs`
(`services/chunking.py`, lines 40-79) -/

/-- One input paragraph, as consumed by `_chunk_paragraphs`:
a `text` and a `page` number. -/
structure Paragraph where
  text : String
  page : Nat
deriving DecidableEq, Repr

/-- One chunk produced by `ChunkingService`: `{"text": ..., "page": ...,
"type": ...}`.  The page is `Option Nat` because the accumulating
paragraph chunk starts with `"page": None`. -/
structure Chunk where
  text : String
  page : Option Nat
  ctype : String
deriving DecidableEq, Repr

/-- Stable insertion preserving the relative order of equal pages,
modelling Python's stable `sorted(..., key=lambda p: p["page"])`. -/
def insertByPage (p : Paragraph) : List Paragraph → List Paragraph
  | [] => [p]
  | q :: qs => if q.page ≤ p.page then q :: insertByPage p qs else p :: q :: qs

/-- Model of `sorted(paragraphs, key=lambda p: p["page"])` (stable sort:
each element is inserted after all already-placed elements whose page is
less than or equal to its own). -/
def sortByPage (ps : List Paragraph) : List Paragraph :=
  ps.foldl (fun acc p => insertByPage p acc) []

/-- The empty accumulating chunk `{"text": "", "page": None, "type": "paragraph"}`. -/
def paraInit : Chunk := ⟨"", none, "paragraph"⟩

/-- One iteration of the `for paragraph in paragraphs` loop of
`_chunk_paragraphs`.  State is `(chunks, current_chunk)`: whitespace-only
paragraphs are skipped; the buffer is flushed when appending would exceed
`max_chunk_size` and the buffer already meets `min_chunk_size`; then the
page is set if still `None`, a blank-line separator is added if the
buffer has content, and the paragraph text is appended. -/
def paraStep (maxC minC : Nat) (st : List Chunk × Chunk) (p : Paragraph) :
    List Chunk × Chunk :=
  if pyStrip p.text = "" then st
  else
    let flushed : List Chunk × Chunk :=
      if maxC < st.2.text.length + p.text.length ∧ minC ≤ st.2.text.length
      then (st.1 ++ [st.2], ⟨"", some p.page, "paragraph"⟩)
      else st
    let cur2 : Chunk :=
      if flushed.2.page = none
      then ⟨flushed.2.text, some p.page, flushed.2.ctype⟩
      else flushed.2
    let cur3 : Chunk :=
      if cur2.text = "" then cur2 else ⟨cur2.text ++ "\n\n", cur2.page, cur2.ctype⟩
    (flushed.1, ⟨cur3.text ++ p.text, cur3.page, cur3.ctype⟩)

/-- The whole loop of `_chunk_paragraphs` run from a given state. -/
def paraRun (maxC minC : Nat) (st : List Chunk × Chunk) (ps : List Paragraph) :
    List Chunk × Chunk :=
  ps.foldl (paraStep maxC minC) st

/-- Model of `chunks[-1]["text"] += "\n\n" + current_chunk["text"]`. -/
def appendToLast (chunks : List Chunk) (t : String) : List Chunk :=
  match chunks with
  | [] => []
  | [c] => [⟨c.text ++ "\n\n" ++ t, c.page, c.ctype⟩]
  | c :: d :: rest => c :: appendToLast (d :: rest) t

/-- The trailing-buffer handling at the end of `_chunk_paragraphs`
(lines 68-77 of `services/chunking.py`). -/
def paraFinish (minC : Nat) (st : List Chunk × Chunk) : List Chunk :=
  if st.2.text ≠ "" ∧ minC ≤ st.2.text.length then st.1 ++ [st.2]
  else if st.2.text ≠ "" then
    if st.1 = [] then [st.2] else appendToLast st.1 st.2.text
  else st.1

/-- The loop state of `_chunk_paragraphs` after all paragraphs are
consumed, before trailing-buffer handling. -/
def paraState (maxC minC : Nat) (ps : List Paragraph) : List Chunk × Chunk :=
  paraRun maxC minC ([], paraInit) (sortByPage ps)

/-- `ChunkingService._chunk_paragraphs`. -/
def chunkParagraphs (maxC minC : Nat) (ps : List Paragraph) : List Chunk :=
  paraFinish minC (paraState maxC minC ps)

/-! ## Table chunking — `ChunkingService._chunk_tables` / `_table_to_text`
(`services/chunking.py`, lines 81-134) -/

/-- One table record: `{"content": cell grid, "row_count": ...,
"column_count": ..., "page": ...}`. -/
structure TableRec where
  content : List (List String)
  row_count : Nat
  column_count : Nat
  page : Nat
deriving DecidableEq, Repr

/-- One pass of the column-width loop of `_table_to_text`: widen each
width by the corresponding cell of `row`; cells beyond the width list
are ignored (`if i < len(col_widths)`), widths beyond the row are kept. -/
def updWidths : List Nat → List String → List Nat
  | ws, [] => ws
  | [], _ => []
  | w :: ws, c :: cs => max w c.data.length :: updWidths ws cs

/-- `col_widths` of `_table_to_text`: initialised to `[0]*len(row0)` and
widened over every row. -/
def colWidths (content : List (List String)) : List Nat :=
  content.foldl updWidths (List.replicate ((content.headD []).length) 0)

/-- The `+---+` separator line:
`"+" + "+".join("-" * (width + 2) for width in col_widths) + "+"`. -/
def sepLine (ws : List Nat) : String :=
  "+" ++ joinWith "+" (ws.map fun w => ⟨List.replicate (w + 2) '-'⟩) ++ "+"

/-- The cell parts of a data row: each cell with an index below
`len(col_widths)` contributes `f" {cell:{width}} |"`. -/
def rowCells : List Nat → List String → String
  | _, [] => ""
  | [], _ => ""
  | w :: ws, c :: cs => " " ++ padRight c w ++ " |" ++ rowCells ws cs

/-- One data row line of the boxed table text (starts with `"|"`). -/
def rowLine (ws : List Nat) (row : List String) : String :=
  "|" ++ rowCells ws row

/-- `ChunkingService._table_to_text`: separator, then for every row the
row line followed by a separator, joined with newlines. -/
def tableToText (content : List (List String)) : String :=
  match content with
  | [] => ""
  | _ =>
    let ws := colWidths content
    let sep := sepLine ws
    joinWith "\n" (sep :: content.flatMap (fun row => [rowLine ws row, sep]))

/-- Model of Python `range(0, stop, step)` for `step ≥ 1`:
`[0, step, 2*step, ...]`, of length `⌈stop/step⌉`. -/
def rangeStep (stop step : Nat) : List Nat :=
  (List.range ((stop + step - 1) / step)).map (· * step)

/-- `rows_per_chunk` as the source computes it:
`max(1, row_count // ((len(table_text) // max_chunk_size) + 1))`. -/
def rowsPerChunk (maxC : Nat) (t : TableRec) : Nat :=
  max 1 (t.row_count / ((tableToText t.content).length / maxC + 1))

/-- The label and window of the `i`-th row split of a table. -/
def tableSliceChunk (t : TableRec) (rpc i : Nat) : Chunk :=
  ⟨"Table (rows " ++ toString (i + 1) ++ "-" ++
      toString (min (i + rpc) t.row_count) ++ " of " ++
      toString t.row_count ++ "):\n" ++
      tableToText ((t.content.drop i).take rpc),
    some t.page, "table"⟩

/-- The split of one oversized table (`len(table_text) > max_chunk_size`):
one chunk per row window `content[i:i+rows_per_chunk]`, labelled with its
row range and the total row count. -/
def chunkOneTable (maxC : Nat) (t : TableRec) : List Chunk :=
  let tt := tableToText t.content
  if maxC < tt.length then
    (rangeStep t.row_count (rowsPerChunk maxC t)).map
      (tableSliceChunk t (rowsPerChunk maxC t))
  else
    [⟨"Table (" ++ toString t.row_count ++ "x" ++ toString t.column_count ++
        "):\n" ++ tt, some t.page, "table"⟩]

/-- `rows_per_chunk` as claim C8 words it:
`max(1, row_count // ceil(serialized_len / max_chunk_size))`. -/
def rowsPerChunkClaimed (maxC : Nat) (t : TableRec) : Nat :=
  max 1 (t.row_count / (((tableToText t.content).length + maxC - 1) / maxC))

/-- The table split as claim C8 describes it, for comparison with
`chunkOneTable`: identical except that `rows_per_chunk` uses the ceiling
of `serialized_len / max_chunk_size` instead of its floor plus one. -/
def chunkOneTableClaimed (maxC : Nat) (t : TableRec) : List Chunk :=
  let tt := tableToText t.content
  if maxC < tt.length then
    (rangeStep t.row_count (rowsPerChunkClaimed maxC t)).map
      (tableSliceChunk t (rowsPerChunkClaimed maxC t))
  else
    [⟨"Table (" ++ toString t.row_count ++ "x" ++ toString t.column_count ++
        "):\n" ++ tt, some t.page, "table"⟩]

/-- `ChunkingService._chunk_tables`. -/
def chunkTables (maxC : Nat) (tables : List TableRec) : List Chunk :=
  tables.flatMap (chunkOneTable maxC)

/-! ## Figure and handwriting chunking — `ChunkingService._chunk_figures`
/ `_chunk_handwriting` (`services/chunking.py`, lines 136-166) -/

/-- One figure record of the plain strategy: `{"caption", "text", "page"}`. -/
structure FigRec where
  caption : String
  text : String
  page : Nat
deriving DecidableEq, Repr

/-- One handwriting record: `{"text", "page"}`. -/
structure HandRec where
  text : String
  page : Nat
deriving DecidableEq, Repr

/-- `ChunkingService._chunk_figures`: one chunk `"{caption}: {text}"` per
figure whose text is not whitespace-only. -/
def chunkFigRecs (figs : List FigRec) : List Chunk :=
  figs.filterMap (fun f =>
    if pyStrip f.text = "" then none
    else some ⟨f.caption ++ ": " ++ f.text, some f.page, "figure"⟩)

/-- `ChunkingService._chunk_handwriting`: one chunk
`"Handwritten text: {text}"` per non-whitespace handwriting item. -/
def chunkHandwriting (hw : List HandRec) : List Chunk :=
  hw.filterMap (fun h =>
    if pyStrip h.text = "" then none
    else some ⟨"Handwritten text: " ++ h.text, some h.page, "handwriting"⟩)

/-! ## Hybrid figure/paragraph strategy — `HybridChunkingStrategy`
(`services/chunking.py`, lines 169-387) -/

/-- Splitting a character list at a separator character, modelling
Python `str.split(sep)` for a one-character separator. -/
def splitChar (sep : Char) : List Char → List (List Char)
  | [] => [[]]
  | c :: cs =>
    if c = sep then [] :: splitChar sep cs
    else
      match splitChar sep cs with
      | [] => [[c]]
      | l :: ls => (c :: l) :: ls

/-- Digit-string parsing: `some n` iff the list is a non-empty run of
decimal digits. -/
def digitsToNat : List Char → Option Nat
  | [] => none
  | cs => cs.foldl
      (fun acc c =>
        match acc with
        | none => none
        | some n => if c.isDigit then some (n * 10 + (c.toNat - 48)) else none)
      (some 0)

/-- Model of Python `int(s)` on the relevant inputs: optional sign then
digits; everything else fails. -/
def parseInt : List Char → Option Int
  | '-' :: rest => (digitsToNat rest).map (fun n => -(n : Int))
  | '+' :: rest => (digitsToNat rest).map (fun n => (n : Int))
  | cs => (digitsToNat cs).map (fun n => (n : Int))

/-- Boolean character-list prefix test. -/
def isPre : List Char → List Char → Bool
  | [], _ => true
  | _ :: _, [] => false
  | a :: as, b :: bs => a == b && isPre as bs

/-- Model of Python `str.startswith`. -/
def pyStarts (s pre : String) : Bool := isPre pre.data s.data

/-- `HybridChunkingStrategy._extract_paragraph_index`: for a reference of
the form `"/paragraphs/N"`, parse `N` from the last `/`-separated
component; `-1` on any failure. -/
def extractParagraphIndex (ref : String) : Int :=
  if pyStarts ref "/paragraphs/" then
    match parseInt ((splitChar '/' ref.data).getLastD []) with
    | some n => n
    | none => -1
  else -1

/-- A bounding region: only the page number is observed by the chunker. -/
structure Region where
  pageNumber : Nat
deriving DecidableEq, Repr

/-- A figure caption: `content` (`""` when the key is absent) and
`elements` (`[]` when the key is absent). -/
structure FigCaption where
  content : String
  elements : List String
deriving DecidableEq, Repr

/-- A figure of the analyze result: id, bounding regions, referenced
`elements`, and an optional caption. -/
structure AFigure where
  id : String
  regions : List Region
  elements : List String
  caption : Option FigCaption
deriving DecidableEq, Repr

/-- A paragraph of the analyze result: `content`, optional `role`, and
bounding regions. -/
structure AParagraph where
  content : String
  role : Option String
  regions : List Region
deriving DecidableEq, Repr

/-- An (unwrapped) analyze result: the fields `HybridChunkingStrategy`
reads. -/
structure AnalyzeResult where
  figures : List AFigure
  paragraphs : List AParagraph
deriving DecidableEq, Repr

/-- A chunk of the hybrid strategy; `included` models
`metadata["included_paragraph_indices"]` and `role` the paragraph-role
metadata. -/
structure HChunk where
  chunk_id : String
  chunk_type : String
  page_number : Nat
  regions : List Region
  content : String
  included : List Int
  role : Option String
deriving DecidableEq, Repr

/-- `HybridChunkingStrategy._get_paragraph_content`: the stripped content
when `0 <= index < len(paragraphs)`, else `""`. -/
def getParagraphContent (paras : List AParagraph) (i : Int) : String :=
  if 0 ≤ i then
    match paras.get? i.toNat with
    | some p => pyStrip p.content
    | none => ""
  else ""

/-- The element loop of `_chunk_figures`: over the figure's elements
(figure `elements` then caption `elements`), collect paragraph contents
(deduplicated by content) and the indices actually added. -/
def figureCollect (paras : List AParagraph) :
    List String → List String × List Int → List String × List Int
  | [], st => st
  | e :: es, st =>
    if pyStarts e "/paragraphs/" then
      let idx := extractParagraphIndex e
      if idx < (paras.length : Int) then
        let pc := getParagraphContent paras idx
        if pc ≠ "" ∧ pc ∉ st.1 then
          figureCollect paras es (st.1 ++ [pc], st.2 ++ [idx])
        else figureCollect paras es st
      else figureCollect paras es st
    else figureCollect paras es st

/-- `HybridChunkingStrategy._chunk_figures` restricted to one figure:
`none` when the joined figure text is whitespace-only. -/
def chunkOneFigure (paras : List AParagraph) (fig : AFigure) : Option HChunk :=
  let pageNumber := ((fig.regions.head?).map Region.pageNumber).getD 1
  let elems := fig.elements ++ (match fig.caption with
    | some c => c.elements
    | none => [])
  let capText := match fig.caption with
    | some c => c.content
    | none => ""
  let start : List String × List Int := if capText ≠ "" then ([capText], []) else ([], [])
  let st := figureCollect paras elems start
  let figureText := joinWith "\n" st.1
  if pyStrip figureText ≠ "" then
    some ⟨"figure_" ++ fig.id, "figure", pageNumber, fig.regions, figureText,
      st.2, none⟩
  else none

/-- `HybridChunkingStrategy._chunk_figures`. -/
def chunkFiguresHybrid (result : AnalyzeResult) : List HChunk :=
  result.figures.filterMap (chunkOneFigure result.paragraphs)

/-- The indices absorbed into figure chunks
(`included_paragraphs.update(...)` in `chunk_document`). -/
def includedParagraphs (result : AnalyzeResult) : List Int :=
  (chunkFiguresHybrid result).flatMap HChunk.included

/-- The loop of `_chunk_standalone_paragraphs`: `i` is the source index,
`ctr` the running `paragraph_index` used for chunk ids. -/
def standaloneAux (included : List Int) :
    List AParagraph → Nat → Nat → List HChunk
  | [], _, _ => []
  | p :: ps, i, ctr =>
    if (i : Int) ∈ included then standaloneAux included ps (i + 1) ctr
    else if pyStrip p.content = "" then standaloneAux included ps (i + 1) ctr
    else
      ⟨"paragraph_" ++ toString ctr, "paragraph",
          ((p.regions.head?).map Region.pageNumber).getD 1, p.regions,
          pyStrip p.content, [], p.role⟩ ::
        standaloneAux included ps (i + 1) (ctr + 1)

/-- `HybridChunkingStrategy._chunk_standalone_paragraphs`. -/
def chunkStandaloneParagraphs (paras : List AParagraph) (included : List Int) :
    List HChunk :=
  standaloneAux included paras 0 0

/-- `HybridChunkingStrategy.chunk_document` (figure chunks, then the
standalone paragraphs not absorbed by them). -/
def hybridChunkDocument (result : AnalyzeResult) : List HChunk :=
  let figChunks := chunkFiguresHybrid result
  figChunks ++ chunkStandaloneParagraphs result.paragraphs (includedParagraphs result)

/-- The paragraph indices referenced by any figure's `elements`,
including its caption's `elements` (the left-hand set of claim C4). -/
def referencedParagraphIndices (result : AnalyzeResult) : List Int :=
  result.figures.flatMap (fun fig =>
    (fig.elements ++ (match fig.caption with
      | some c => c.elements
      | none => [])).filterMap (fun e =>
        if pyStarts e "/paragraphs/" then some (extractParagraphIndex e) else none))

/-- The source indices of the paragraphs `chunk_document` emits as
standalone paragraph chunks (the right-hand set of claim C4). -/
def standaloneSourceIndices (result : AnalyzeResult) : List Nat :=
  (List.range result.paragraphs.length).filter (fun i =>
    decide ((i : Int) ∉ includedParagraphs result) &&
    decide (pyStrip (((result.paragraphs.get? i).map AParagraph.content).getD "") ≠ ""))

/-! ## Whole-document chunking — `ChunkingService.chunk_document`
(`services/chunking.py`, lines 12-38) -/

/-- The structured content extracted from the OCR result, as consumed by
`chunk_document`. -/
structure StructuredContent where
  paragraphs : List Paragraph
  tables : List TableRec
  figures : List FigRec
  handwriting : List HandRec
deriving Repr

/-- A chunk carrying the document metadata added by `chunk_document`. -/
structure IdChunk where
  text : String
  page : Option Nat
  ctype : String
  id : String
  parent_id : String
  document_title : String
deriving DecidableEq, Repr

/-- The metadata loop of `chunk_document`: the `i`-th chunk gets id
`f"{document_id}_chunk_{i}"`. -/
def assignIds (docId docTitle : String) (chunks : List Chunk) : List IdChunk :=
  (List.range chunks.length).zip chunks |>.map (fun ic =>
    ⟨ic.2.text, ic.2.page, ic.2.ctype,
      docId ++ "_chunk_" ++ toString ic.1, docId, docTitle⟩)

/-- `ChunkingService.chunk_document`: paragraph, table, figure and
handwriting chunks concatenated, then ids assigned. -/
def chunkDocument (maxC minC : Nat) (content : StructuredContent)
    (docId docTitle : String) : List IdChunk :=
  assignIds docId docTitle
    (chunkParagraphs maxC minC content.paragraphs ++
      chunkTables maxC content.tables ++
      chunkFigRecs content.figures ++
      chunkHandwriting content.handwriting)

/-! ## Embedding stage — per-chunk loop of `process_document_from_queue`
(`function_app.py`, lines 1419-1454) -/

/-- The `text[:8000]` truncation applied before each embedding call. -/
def truncate8000 (s : String) : String :=
  if 8000 < s.data.length then ⟨s.data.take 8000⟩ else s

/-- The embedding loop: `call i text` models the `i`-th
`openai.embeddings.create` request, returning `none` when it raises.
A failing chunk is skipped; a successful one is appended with its
vector. -/
def embedLoop (call : Nat → String → Option β) :
    Nat → List IdChunk → List (IdChunk × β)
  | _, [] => []
  | i, c :: cs =>
    match call i (truncate8000 c.text) with
    | some v => (c, v) :: embedLoop call (i + 1) cs
    | none => embedLoop call (i + 1) cs

/-- The embedding stage: `chunks_with_vectors` after the loop. -/
def embedStage (call : Nat → String → Option β) (chunks : List IdChunk) :
    List (IdChunk × β) :=
  embedLoop call 0 chunks

/-- The skipped-chunk count the stage reports
(`len(chunks) - len(chunks_with_vectors)`, per the final log line). -/
def embedSkipped (call : Nat → String → Option β) (chunks : List IdChunk) : Nat :=
  chunks.length - (embedStage call chunks).length

/-- Enumeration of a list starting at `i` (Python `enumerate`). -/
def enumFrom (i : Nat) : List α → List (Nat × α)
  | [] => []
  | x :: xs => (i, x) :: enumFrom (i + 1) xs

/-! ## File records and status updates — `database/crud.py`
(`update_file_status`, lines 260-300; `get_failed_files`, lines 428-445) -/

/-- The columns of a `File` row that the pipeline reads or writes.
Timestamps are abstract integers (`now` is passed explicitly in place of
`datetime.utcnow()`); metadata is a key/value list, `none` when never
set. -/
structure FileRec where
  id : Nat
  name : String
  status : String
  attempts : Nat
  created_at : Int
  updated_at : Option Int
  last_attempt_at : Option Int
  processed_at : Option Int
  error_message : Option String
  file_metadata : Option (List (String × Int))
deriving DecidableEq, Repr

/-- `crud.update_file_status`: sets `status` and `updated_at`; increments
`attempts` for `'processing'`; stamps `processed_at` only for
`'completed'`; stores `error_message` for `'error'`; stores `metadata`
only when it is truthy (a non-empty dict). -/
def updateFileStatus (f : FileRec) (now : Int) (status : String)
    (metadata : Option (List (String × Int))) (errMsg : Option String) :
    FileRec :=
  let f1 := { f with status := status, updated_at := some now }
  let f2 := if status = "processing" then
      { f1 with attempts := f1.attempts + 1, last_attempt_at := some now }
    else f1
  let f3 := if status = "completed" then { f2 with processed_at := some now } else f2
  let f4 := if status = "error" then { f3 with error_message := errMsg } else f3
  match metadata with
  | some m => if m = [] then f4 else { f4 with file_metadata := some m }
  | none => f4

/-- `crud.get_failed_files`: files with `status == 'error'` and
`attempts < max_attempts`, further restricted to `created_at > cutoff`
when a cutoff time is given. -/
def getFailedFiles (db : List FileRec) (maxAttempts : Nat)
    (cutoff : Option Int) : List FileRec :=
  let q := db.filter (fun f =>
    f.status == "error" && decide (f.attempts < maxAttempts))
  match cutoff with
  | some c => q.filter (fun f => decide (c < f.created_at))
  | none => q

/-! ## Index upload and pipeline finalisation —
`process_document_from_queue` (`function_app.py`, lines 1456-1533) -/

/-- One document pushed to the search index. -/
structure SearchDoc (β : Type) where
  chunk_id : String
  text_parent_id : String
  chunk : String
  title : String
  header_1 : String
  header_2 : String
  header_3 : String
  content_vector : β
  user_id : String
deriving Repr

/-- Python `f"Page {chunk['page']}"` where the page may be `None`. -/
def pageText : Option Nat → String
  | some n => toString n
  | none => "None"

/-- Python `str.capitalize()`: first character upper-cased, the rest
lower-cased. -/
def pyCapitalize (s : String) : String :=
  match s.data with
  | [] => ""
  | c :: cs => ⟨c.toUpper :: cs.map Char.toLower⟩

/-- The search document built for one embedded chunk. -/
def mkSearchDoc (userId : String) (cv : IdChunk × β) : SearchDoc β :=
  ⟨cv.1.id, cv.1.parent_id, cv.1.text, cv.1.document_title,
    cv.1.document_title, "Page " ++ pageText cv.1.page,
    pyCapitalize cv.1.ctype, cv.2, userId⟩

/-- The batched upload loop, structurally recursive on a fuel that
bounds the number of batches (every batch consumes at least one
document, so `docs.length` suffices). -/
def batchUploadAux (upload : List (SearchDoc β) → List Bool) :
    Nat → List (SearchDoc β) → Nat × Nat
  | _, [] => (0, 0)
  | 0, _ :: _ => (0, 0)
  | fuel + 1, d :: ds =>
    let res := upload ((d :: ds).take 1000)
    let rest := batchUploadAux upload fuel ((d :: ds).drop 1000)
    ((res.filter id).length + rest.1,
      (res.filter (fun b => !b)).length + rest.2)

/-- The batched upload loop (batch size 1000): `upload` models
`search_client.upload_documents`, returning per-item success flags; the
result is `(indexed_count, failed_count)`. -/
def batchUpload (upload : List (SearchDoc β) → List Bool)
    (docs : List (SearchDoc β)) : Nat × Nat :=
  batchUploadAux upload docs.length docs

/-- The success path of `process_document_from_queue` after OCR: chunk the
document, embed each chunk (skipping failures), build and upload search
documents in batches, then update the file status to `"complete"` with no
metadata argument.  Returns the updated file record, the indexed and
failed counts, and the pages-processed statistic. -/
def pipelineRun (content : StructuredContent)
    (call : Nat → String → Option β)
    (upload : List (SearchDoc β) → List Bool)
    (userId : String) (f : FileRec) (now : Int) :
    FileRec × Nat × Nat × Nat :=
  let chunks := chunkDocument 1500 100 content ("file_" ++ toString f.id) f.name
  let cwv := embedStage call chunks
  let docs := cwv.map (mkSearchDoc userId)
  let counts := batchUpload upload docs
  let pages := ((chunks.map IdChunk.page).eraseDups).length
  (updateFileStatus f now "complete" none none, counts.1, counts.2, pages)

/-! ## General-purpose splitter — `TextChunker._split_text`
(`services/vector_search/text_chunking.py`, lines 294-342) -/

/-- Model of Python `text.rfind(ch, start, stop)` for a one-character
needle: the largest index `j` with `start ≤ j < stop` (clamped to the
text) holding `ch`; `none` plays the role of `-1`. -/
def rfindCh (text : List Char) (ch : Char) (start stop : Nat) : Option Nat :=
  ((List.range (min stop text.length)).filter (fun j =>
    decide (start ≤ j) && (text.get? j == some ch))).getLast?

/-- The boundary adjustment of `_split_text`: starting from
`end = start + chunk_size`, prefer a sentence boundary past the midpoint,
then a paragraph boundary past the midpoint, then any word boundary. -/
def computeEnd (text : List Char) (cs start : Nat) : Nat :=
  let e0 := start + cs
  if e0 < text.length then
    let fromWord := match rfindCh text ' ' start e0 with
      | some j => j + 1
      | none => e0
    let fromPara := match rfindCh text '\n' start e0 with
      | some j => if start + cs / 2 < j then j + 1 else fromWord
      | none => fromWord
    match rfindCh text '.' start e0 with
    | some j => if start + cs / 2 < j then j + 1 else fromPara
    | none => fromPara
  else e0

/-- The `while start < len(text)` loop of `_split_text`, with explicit
fuel: `none` means the fuel ran out with the loop still running.  The
final `start = end - chunk_overlap; if start <= 0 or start >= len(text):
break` is modelled by the two exit tests on `e`. -/
def splitGo (text : List Char) (cs ov : Nat) :
    Nat → Nat → List String → Option (List String)
  | 0, _, _ => none
  | fuel + 1, start, acc =>
    if text.length ≤ start then some acc
    else
      let e := computeEnd text cs start
      let ck := pyStripList ((text.drop start).take (e - start))
      let acc1 := if ck.isEmpty then acc else acc ++ [⟨ck⟩]
      if e ≤ ov then some acc1
      else if text.length ≤ e - ov then some acc1
      else splitGo text cs ov fuel (e - ov) acc1

/-- `TextChunker._split_text` with a fuel bound on loop iterations:
`some chunks` when the loop exits within `fuel` iterations, `none`
otherwise. -/
def splitTextModel (fuel : Nat) (text : String) (cs ov : Nat) :
    Option (List String) :=
  if text.data.length ≤ cs then some [text]
  else splitGo text.data cs ov fuel 0 []

/-! ## Round-trip parser for the boxed table text -/

/-- Modelled from the spec: the repository has no parser for the boxed
table text; the spec's round-trip property (§8) says that re-parsing the
representation produced by `_table_to_text` recovers the cell grid's
dimensions.  Data rows are the newline-separated lines beginning with
`'|'`; the column count is the number of `'|'` cell delimiters in the
first data row minus one (each cell ends in `" |"` after the leading
`"|"`). -/
def parseTableDims (s : String) : Nat × Nat :=
  let lines := splitChar '\n' s.data
  let dataRows := lines.filter (fun l => l.head? == some '|')
  (dataRows.length, (dataRows.headD []).count '|' - 1)

/-! ## Concrete inputs used by the individual claims -/

/-- A file record mid-processing, before the pipeline's final status
update. -/
def fileC1 : FileRec :=
  ⟨7, "doc.pdf", "processing", 1, 0, some 0, some 0, none, none, none⟩

/-- Structured content whose OCR succeeded but which yields zero chunks. -/
def emptyContent : StructuredContent := ⟨[], [], [], []⟩

/-- A file record mid-processing, for claim C3. -/
def fileC3 : FileRec :=
  ⟨9, "rep.pdf", "processing", 1, 0, some 0, some 0, none, none, none⟩

/-- Content with a single short paragraph, for claim C3. -/
def oneParaContent : StructuredContent := ⟨[⟨"hello", 1⟩], [], [], []⟩

/-- Claim C4's failing input: a figure whose caption references
`/paragraphs/0`, and a paragraph 0 whose content equals the caption
text (the shape of the repository's own `test_hybrid_chunking` sample,
where paragraph 3 duplicates the figure caption). -/
def figDupResult : AnalyzeResult :=
  ⟨[⟨"f1", [⟨1⟩], [], some ⟨"Fig 1", ["/paragraphs/0"]⟩⟩],
    [⟨"Fig 1", none, [⟨1⟩]⟩]⟩

/-- Five chunks for claim C5's end-to-end scenario. -/
def fiveChunks : List IdChunk :=
  [⟨"t0", some 1, "paragraph", "d_chunk_0", "d", "T"⟩,
    ⟨"t1", some 1, "paragraph", "d_chunk_1", "d", "T"⟩,
    ⟨"t2", some 1, "paragraph", "d_chunk_2", "d", "T"⟩,
    ⟨"t3", some 2, "paragraph", "d_chunk_3", "d", "T"⟩,
    ⟨"t4", some 2, "paragraph", "d_chunk_4", "d", "T"⟩]

/-- An embedding oracle whose third call (index 2) raises and every other
call succeeds. -/
def thirdCallFails : Nat → String → Option Nat :=
  fun i _ => if i = 2 then none else some i

/-- An `error` file with 2 attempts inside the age window (claim C6). -/
def errFile2 : FileRec :=
  ⟨1, "a.pdf", "error", 2, 100, none, none, none, some "boom", none⟩

/-- An `error` file with 3 attempts inside the age window (claim C6). -/
def errFile3 : FileRec :=
  ⟨2, "b.pdf", "error", 3, 100, none, none, none, some "boom", none⟩

/-- Claim C7's witness input: a paragraph of 5 characters then one of 2,
leaving a trailing buffer below `min_chunk_size = 3`. -/
def psC7 : List Paragraph := [⟨"abcde", 1⟩, ⟨"fg", 1⟩]

/-- Claim C2's witness input: three 2-character paragraphs. -/
def psC2 : List Paragraph := [⟨"ab", 1⟩, ⟨"cd", 1⟩, ⟨"ef", 1⟩]

/-- A 4-row, 1-column table of 2-character cells: its boxed text has
exactly 62 characters, an exact multiple of the `max_chunk_size = 31`
used by claim C8's counterexample. -/
def tblC8 : TableRec := ⟨[["ab"], ["ab"], ["ab"], ["ab"]], 4, 1, 1⟩

/-- A 2-by-2 grid with newline-free, pipe-free cells (claim C9 witness). -/
def gridC9 : List (List String) := [["a", "bb"], ["c", "d"]]

/-! # Theorems -/

/-- C1: the claim says a file whose OCR succeeded but which yielded zero
successfully indexed chunks is finally set to `error`, never `complete`.
The success path of `process_document_from_queue` in fact updates the
status to `"complete"` unconditionally: on a document producing zero
chunks, zero search documents are uploaded (`indexed_count = 0`) and the
file still ends with `status = "complete"` and no error message. -/
theorem C1_zero_chunks_marked_complete :
    (∀ (content : StructuredContent) (call : Nat → String → Option Unit)
        (upload : List (SearchDoc Unit) → List Bool) (userId : String)
        (f : FileRec) (now : Int),
      (pipelineRun content call upload userId f now).1.status = "complete") ∧
    chunkDocument 1500 100 emptyContent "file_7" "doc.pdf" = [] ∧
    (pipelineRun emptyContent (fun _ _ => (none : Option Unit)) (fun _ => [])
        "user1" fileC1 5).2.1 = 0 ∧
    (pipelineRun emptyContent (fun _ _ => (none : Option Unit)) (fun _ => [])
        "user1" fileC1 5).1.status = "complete" ∧
    (pipelineRun emptyContent (fun _ _ => (none : Option Unit)) (fun _ => [])
        "user1" fileC1 5).1.status ≠ "error" ∧
    (pipelineRun emptyContent (fun _ _ => (none : Option Unit)) (fun _ => [])
        "user1" fileC1 5).1.error_message = none := by
  refine ⟨fun content call upload userId f now => rfl, ?_, ?_, ?_, ?_, ?_⟩ <;> decide

/-- C3: the claim says the successful-completion update stamps
`processed_at` and persists metadata carrying the indexed-chunks count
and page count.  The pipeline calls `update_file_status(db, file_id,
"complete")` with no metadata argument, and `update_file_status` stamps
`processed_at` only when the status string is `'completed'` — so the
update leaves `processed_at` and `file_metadata` untouched for every
file record, and a concrete successful run ends with `status =
"complete"`, `processed_at = none` and no stored metadata. -/
theorem C3_complete_update_skips_processed_at_and_metadata :
    (∀ (f : FileRec) (now : Int),
      (updateFileStatus f now "complete" none none).processed_at =
          f.processed_at ∧
      (updateFileStatus f now "complete" none none).file_metadata =
          f.file_metadata) ∧
    (pipelineRun oneParaContent (fun _ _ => some 0) (fun b => b.map (fun _ => true))
        "user1" fileC3 5).1.status = "complete" ∧
    (pipelineRun oneParaContent (fun _ _ => some 0) (fun b => b.map (fun _ => true))
        "user1" fileC3 5).1.processed_at = none ∧
    (pipelineRun oneParaContent (fun _ _ => some 0) (fun b => b.map (fun _ => true))
        "user1" fileC3 5).1.file_metadata = none := by
  refine ⟨fun f now => ⟨rfl, rfl⟩, ?_, ?_, ?_⟩ <;> decide

/-- C4: the claim says the paragraph indices referenced by a figure's
elements (captions included) are disjoint from the indices emitted as
standalone paragraph chunks.  On `figDupResult` — a figure whose caption
references `/paragraphs/0` while paragraph 0's content equals the
caption text — the content-deduplication in `_chunk_figures` drops index
0 from `included_paragraph_indices`, so paragraph 0 is absorbed into the
figure chunk (as its caption) *and* emitted again as standalone chunk
`paragraph_0`: the two sets both contain index 0. -/
theorem C4_absorbed_paragraph_also_standalone :
    referencedParagraphIndices figDupResult = [0] ∧
    standaloneSourceIndices figDupResult = [0] ∧
    (0 : Int) ∈ referencedParagraphIndices figDupResult ∧
    (0 : Nat) ∈ standaloneSourceIndices figDupResult ∧
    hybridChunkDocument figDupResult =
      [⟨"figure_f1", "figure", 1, [⟨1⟩], "Fig 1", [], none⟩,
        ⟨"paragraph_0", "paragraph", 1, [⟨1⟩], "Fig 1", [], none⟩] := by
  decide

/-- C10: the claim says `_split_text` terminates for every input,
`chunk_size ≥ 1` and `chunk_overlap ≥ 0`.  It does not: on
`"ab cdefghij"` with `chunk_size = 5, chunk_overlap = 2` the word-boundary
adjustment pins `end` to 3 and `start = end - chunk_overlap` returns to 1
in every iteration, so the loop never reaches an exit condition — the
fuelled model returns `none` for every fuel bound. -/
theorem C10_split_text_diverges :
    ∀ fuel : Nat, splitTextModel fuel "ab cdefghij" 5 2 = none := by
  have key : ∀ (fuel : Nat) (acc : List String),
      splitGo "ab cdefghij".data 5 2 fuel 1 acc = none := by
    intro fuel
    induction fuel with
    | zero => intro acc; rfl
    | succ n ih =>
      intro acc
      have hstep : splitGo "ab cdefghij".data 5 2 (n + 1) 1 acc =
          splitGo "ab cdefghij".data 5 2 n 1 (acc ++ ["b"]) := rfl
      rw [hstep]
      exact ih (acc ++ ["b"])
  intro fuel
  cases fuel with
  | zero => rfl
  | succ n =>
    have hstep : splitTextModel (n + 1) "ab cdefghij" 5 2 =
        splitGo "ab cdefghij".data 5 2 n 1 ["ab"] := rfl
    rw [hstep]
    exact key n ["ab"]

/-- C2, counterexample: with `max_chunk_size = 5, min_chunk_size = 2`,
(i) a single 8-character paragraph followed by a 2-character one yields a
first (non-trailing, non-merged) chunk of 8 > 5 characters, and (ii) even
when every paragraph is short, the `"\n\n"` joins not counted by the
overflow check produce a first chunk of 6 > 5 characters.  Both violate
"every chunk except possibly one merged trailing chunk has text length at
most max_chunk_size". -/
theorem C2_counterexample :
    chunkParagraphs 5 2 [⟨"abcdefgh", 1⟩, ⟨"xy", 1⟩] =
      [⟨"abcdefgh", some 1, "paragraph"⟩, ⟨"xy", some 1, "paragraph"⟩] ∧
    "abcdefgh".length = 8 ∧ ¬ (8 ≤ 5) ∧
    chunkParagraphs 5 2 psC2 =
      [⟨"ab\n\ncd", some 1, "paragraph"⟩, ⟨"ef", some 1, "paragraph"⟩] ∧
    "ab\n\ncd".length = 6 ∧ ¬ (6 ≤ 5) ∧
    psC2.map (fun p => p.text.length) = [2, 2, 2] := by
  decide

/-- C8, counterexample: `tblC8`'s boxed text has exactly 62 = 2·31
characters.  The claim's `rows_per_chunk = max(1, 4 // ceil(62/31)) = 2`
would emit 2 chunks; the code computes `max(1, 4 // (62 // 31 + 1)) = 1`
and emits 4, so the claimed formula disagrees with the code exactly when
`max_chunk_size` divides the serialized length. -/
theorem C8_counterexample :
    (tableToText tblC8.content).length = 62 ∧ 31 < 62 ∧
    rowsPerChunk 31 tblC8 = 1 ∧ rowsPerChunkClaimed 31 tblC8 = 2 ∧
    (chunkOneTable 31 tblC8).length = 4 ∧
    (chunkOneTableClaimed 31 tblC8).length = 2 ∧
    chunkOneTable 31 tblC8 ≠ chunkOneTableClaimed 31 tblC8 := by
  decide

/-- C9, counterexample: the non-empty rectangular 1-by-1 grid whose only
cell is `"a\nb"` serializes to boxed text whose first data line is
`"| a"`, so parsing recovers `(1, 0)` instead of the grid's `(1, 1)`:
the round-trip fails for cells containing newline characters. -/
theorem C9_counterexample :
    ([["a\nb"]] : List (List String)).length = 1 ∧
    ([["a\nb"]] : List (List String)).map List.length = [1] ∧
    parseTableDims (tableToText [["a\nb"]]) = (1, 0) ∧
    parseTableDims (tableToText [["a\nb"]]) ≠ (1, 1) := by
  decide

lemma embedLoop_eq_filterMap (call : Nat → String → Option β) :
    ∀ (cs : List IdChunk) (i : Nat),
      embedLoop call i cs = (enumFrom i cs).filterMap (fun ic =>
        (call ic.1 (truncate8000 ic.2.text)).map (fun v => (ic.2, v))) := by
  intro cs
  induction cs with
  | nil => intro i; rfl
  | cons c cs ih =>
    intro i
    show (match call i (truncate8000 c.text) with
      | some v => (c, v) :: embedLoop call (i + 1) cs
      | none => embedLoop call (i + 1) cs) = _
    cases h : call i (truncate8000 c.text) with
    | none => simp [enumFrom, List.filterMap_cons, h, ih]
    | some v => simp [enumFrom, List.filterMap_cons, h, ih]

lemma filterMap_length_add (f : α → Option γ) :
    ∀ l : List α,
      (l.filterMap f).length +
        (l.filter (fun a => (f a).isNone)).length = l.length := by
  intro l
  induction l with
  | nil => rfl
  | cons a l ih =>
    cases h : f a with
    | none =>
      simp [List.filterMap_cons, List.filter_cons, h]
      omega
    | some v =>
      simp [List.filterMap_cons, List.filter_cons, h]
      omega

lemma enumFrom_length : ∀ (l : List α) (i : Nat), (enumFrom i l).length = l.length := by
  intro l
  induction l with
  | nil => intro i; rfl
  | cons a l ih => intro i; simpa [enumFrom] using ih (i + 1)

lemma embedLoop_length (call : Nat → String → Option β)
    (cs : List IdChunk) (i : Nat) :
    (embedLoop call i cs).length +
      ((enumFrom i cs).filter (fun ic =>
        (call ic.1 (truncate8000 ic.2.text)).isNone)).length = cs.length := by
  rw [embedLoop_eq_filterMap]
  have h1 := filterMap_length_add (fun ic : Nat × IdChunk =>
    (call ic.1 (truncate8000 ic.2.text)).map (fun v => (ic.2, v))) (enumFrom i cs)
  have h2 := enumFrom_length cs i
  have hmap : ∀ (ic : Nat × IdChunk),
      ((call ic.1 (truncate8000 ic.2.text)).map (fun v => (ic.2, v))).isNone =
        (call ic.1 (truncate8000 ic.2.text)).isNone := by
    intro ic
    cases call ic.1 (truncate8000 ic.2.text) <;> rfl
  simp only [hmap] at h1
  omega

/-- C5: the embedding stage is total (it is a function of the per-call
oracle, never propagating a per-chunk failure), its output is exactly the
ordered sublist of chunks whose call succeeded, paired with their
vectors, and the skipped count is the number of failing calls; on five
chunks whose third call fails it returns four chunks, in order, with one
skipped. -/
theorem C5_embedding_skips_failed_chunks :
    (∀ (β : Type) (call : Nat → String → Option β) (chunks : List IdChunk),
      embedStage call chunks = (enumFrom 0 chunks).filterMap (fun ic =>
        (call ic.1 (truncate8000 ic.2.text)).map (fun v => (ic.2, v))) ∧
      embedSkipped call chunks = ((enumFrom 0 chunks).filter (fun ic =>
        (call ic.1 (truncate8000 ic.2.text)).isNone)).length) ∧
    (embedStage thirdCallFails fiveChunks).length = 4 ∧
    embedSkipped thirdCallFails fiveChunks = 1 ∧
    (embedStage thirdCallFails fiveChunks).map (fun cv => cv.1.id) =
      ["d_chunk_0", "d_chunk_1", "d_chunk_3", "d_chunk_4"] ∧
    (embedStage thirdCallFails fiveChunks).map (fun cv => cv.2) =
      [0, 1, 3, 4] := by
  refine ⟨fun β call chunks => ⟨embedLoop_eq_filterMap call chunks 0, ?_⟩,
    by decide, by decide, by decide, by decide⟩
  have h := embedLoop_length call chunks 0
  unfold embedSkipped embedStage
  omega

/-- C6: `get_failed_files` with a cutoff returns exactly the files with
`status = 'error'`, `attempts < max_attempts` and `created_at >
cutoff_time` — as a single filter, and as a membership characterisation —
and with `MAX_RETRY_ATTEMPTS = 3` it selects an `error` file with 2
attempts inside the age window but not one with 3 attempts. -/
theorem C6_get_failed_files_selection :
    (∀ (db : List FileRec) (maxA : Nat) (c : Int),
      getFailedFiles db maxA (some c) =
        db.filter (fun f => f.status == "error" &&
          decide (f.attempts < maxA) && decide (c < f.created_at))) ∧
    (∀ (db : List FileRec) (maxA : Nat) (c : Int) (f : FileRec),
      f ∈ getFailedFiles db maxA (some c) ↔
        f ∈ db ∧ f.status = "error" ∧ f.attempts < maxA ∧ c < f.created_at) ∧
    getFailedFiles [errFile2, errFile3] 3 (some 10) = [errFile2] ∧
    getFailedFiles [errFile3] 3 (some 10) = [] := by
  refine ⟨?_, ?_, by decide, by decide⟩
  · intro db maxA c
    simp only [getFailedFiles, List.filter_filter]
    congr 1
    funext f
    exact Bool.and_comm _ _
  · intro db maxA c f
    simp only [getFailedFiles, List.mem_filter, Bool.and_eq_true, beq_iff_eq,
      decide_eq_true_eq]
    tauto

lemma str_app_ne (a b : String) (hb : b ≠ "") : a ++ b ≠ "" := by
  intro hcontra
  apply hb
  have hdata := congrArg String.data hcontra
  rw [String.data_append] at hdata
  have hnil : b.data = [] := (List.append_eq_nil.mp hdata).2
  exact String.ext hnil

lemma text_ne_of_strip_ne (s : String) (h : pyStrip s ≠ "") : s ≠ "" := by
  intro hcontra
  exact h (by rw [hcontra]; rfl)

lemma length_appendToLast : ∀ (l : List Chunk) (t : String),
    (appendToLast l t).length = l.length := by
  intro l
  induction l with
  | nil => intro t; rfl
  | cons c l ih =>
    intro t
    cases l with
    | nil => rfl
    | cons d rest => simpa [appendToLast] using ih t

lemma paraStep_skip (maxC minC : Nat) (st : List Chunk × Chunk)
    (p : Paragraph) (hp : pyStrip p.text = "") :
    paraStep maxC minC st p = st := by
  simp [paraStep, hp]

lemma paraStep_snd_text (maxC minC : Nat) (st : List Chunk × Chunk)
    (p : Paragraph) (hp : ¬ pyStrip p.text = "") :
    ∃ a : String, (paraStep maxC minC st p).2.text = a ++ p.text := by
  unfold paraStep
  rw [if_neg hp]
  exact ⟨_, rfl⟩

lemma paraStep_ne (maxC minC : Nat) (st : List Chunk × Chunk)
    (p : Paragraph) (hp : ¬ pyStrip p.text = "") :
    (paraStep maxC minC st p).2.text ≠ "" := by
  obtain ⟨a, ha⟩ := paraStep_snd_text maxC minC st p hp
  rw [ha]
  exact str_app_ne a p.text (text_ne_of_strip_ne p.text hp)

lemma mem_insertByPage (a p : Paragraph) :
    ∀ l : List Paragraph, a ∈ insertByPage p l ↔ a = p ∨ a ∈ l := by
  intro l
  induction l with
  | nil => simp [insertByPage]
  | cons q qs ih =>
    by_cases h : q.page ≤ p.page
    · simp only [insertByPage, if_pos h, List.mem_cons, ih]
      tauto
    · simp only [insertByPage, if_neg h, List.mem_cons]

lemma mem_sortFold (a : Paragraph) :
    ∀ (ps : List Paragraph) (acc : List Paragraph),
      a ∈ ps.foldl (fun acc p => insertByPage p acc) acc ↔ a ∈ acc ∨ a ∈ ps := by
  intro ps
  induction ps with
  | nil => intro acc; simp
  | cons p ps ih =>
    intro acc
    simp only [List.foldl_cons, ih, mem_insertByPage, List.mem_cons]
    tauto

lemma mem_sortByPage (a : Paragraph) (ps : List Paragraph) :
    a ∈ sortByPage ps ↔ a ∈ ps := by
  simpa [sortByPage] using mem_sortFold a ps []

lemma paraRun_Q (maxC minC : Nat) :
    ∀ (ps : List Paragraph) (st : List Chunk × Chunk),
      ((∃ p ∈ ps, pyStrip p.text ≠ "") ∨ st.2.text ≠ "" ∨ st.1 ≠ []) →
      ((paraRun maxC minC st ps).2.text ≠ "" ∨ (paraRun maxC minC st ps).1 ≠ []) := by
  intro ps
  induction ps with
  | nil =>
    intro st h
    rcases h with ⟨p, hp, _⟩ | h
    · exact absurd hp (List.not_mem_nil p)
    · exact h
  | cons p ps ih =>
    intro st h
    have hrun : paraRun maxC minC st (p :: ps) =
        paraRun maxC minC (paraStep maxC minC st p) ps := rfl
    rw [hrun]
    apply ih
    by_cases hp : pyStrip p.text = ""
    · rw [paraStep_skip maxC minC st p hp]
      rcases h with ⟨q, hq, hqne⟩ | h
      · rcases List.mem_cons.mp hq with heq | hmem
        · exact absurd (heq ▸ hqne) (by simp [hp])
        · exact Or.inl ⟨q, hmem, hqne⟩
      · exact Or.inr h
    · exact Or.inr (Or.inl (paraStep_ne maxC minC st p hp))

lemma appendToLast_ne_nil (l : List Chunk) (t : String) (h : l ≠ []) :
    appendToLast l t ≠ [] := by
  intro hcontra
  apply h
  have := length_appendToLast l t
  rw [hcontra] at this
  exact List.length_eq_zero.mp this.symm

lemma paraFinish_ne (minC : Nat) (st : List Chunk × Chunk)
    (h : st.2.text ≠ "" ∨ st.1 ≠ []) : paraFinish minC st ≠ [] := by
  unfold paraFinish
  by_cases h1 : st.2.text ≠ "" ∧ minC ≤ st.2.text.length
  · rw [if_pos h1]
    simp
  · rw [if_neg h1]
    by_cases h2 : st.2.text ≠ ""
    · rw [if_pos h2]
      by_cases h3 : st.1 = []
      · rw [if_pos h3]; simp
      · rw [if_neg h3]; exact appendToLast_ne_nil st.1 st.2.text h3
    · rw [if_neg h2]
      rcases h with h | h
      · exact absurd h h2
      · exact h

/-- C7: when the trailing accumulation buffer is non-empty but below
`min_chunk_size`, its text is appended to the last previously emitted
chunk (the chunk count does not grow); when no chunk was emitted before
it, the buffer is emitted anyway; consequently every input containing at
least one non-whitespace paragraph produces at least one chunk. -/
theorem C7_trailing_buffer_merged :
    (∀ (maxC minC : Nat) (ps : List Paragraph) (chunks : List Chunk)
        (buf : Chunk),
      paraState maxC minC ps = (chunks, buf) →
      buf.text ≠ "" → buf.text.length < minC →
      (chunks ≠ [] →
        chunkParagraphs maxC minC ps = appendToLast chunks buf.text ∧
        (chunkParagraphs maxC minC ps).length = chunks.length) ∧
      (chunks = [] → chunkParagraphs maxC minC ps = [buf])) ∧
    (∀ (maxC minC : Nat) (ps : List Paragraph),
      (∃ p ∈ ps, pyStrip p.text ≠ "") → chunkParagraphs maxC minC ps ≠ []) := by
  constructor
  · intro maxC minC ps chunks buf hst hne hlt
    have hfin : chunkParagraphs maxC minC ps = paraFinish minC (chunks, buf) := by
      unfold chunkParagraphs
      rw [hst]
    have hnotA : ¬ ((chunks, buf).2.text ≠ "" ∧ minC ≤ (chunks, buf).2.text.length) := by
      intro hA
      have hA2 : minC ≤ buf.text.length := hA.2
      omega
    constructor
    · intro hchunks
      have hbr : paraFinish minC (chunks, buf) = appendToLast chunks buf.text := by
        unfold paraFinish
        rw [if_neg hnotA, if_pos hne, if_neg hchunks]
      rw [hfin, hbr]
      exact ⟨rfl, length_appendToLast chunks buf.text⟩
    · intro hchunks
      have hbr : paraFinish minC (chunks, buf) = [buf] := by
        unfold paraFinish
        rw [if_neg hnotA, if_pos hne, if_pos hchunks]
      rw [hfin, hbr]
  · intro maxC minC ps hex
    obtain ⟨p, hp, hpne⟩ := hex
    have hQ := paraRun_Q maxC minC (sortByPage ps) ([], paraInit)
      (Or.inl ⟨p, (mem_sortByPage p ps).mpr hp, hpne⟩)
    exact paraFinish_ne minC (paraState maxC minC ps) hQ

/-- C7 witness: on `psC7` (paragraphs of 5 and 2 characters with
`max = 5, min = 3`) the loop leaves chunk list `["abcde"]` and trailing
buffer `"fg"`, which is merged into the previous chunk; the non-empty
input also yields a non-empty result. -/
theorem C7_trailing_buffer_merged_witness :
    chunkParagraphs 5 3 psC7 = [⟨"abcde\n\nfg", some 1, "paragraph"⟩] ∧
    (chunkParagraphs 5 3 psC7).length = 1 ∧
    chunkParagraphs 5 3 psC7 ≠ [] := by
  have h := (C7_trailing_buffer_merged.1 5 3 psC7
    [⟨"abcde", some 1, "paragraph"⟩] ⟨"fg", some 1, "paragraph"⟩
    (by decide) (by decide) (by decide)).1 (by decide)
  have hne := C7_trailing_buffer_merged.2 5 3 psC7
    ⟨⟨"abcde", 1⟩, by decide, by decide⟩
  refine ⟨?_, ?_, hne⟩
  · rw [h.1]; decide
  · rw [h.2]; decide

lemma paraStep_bounds (maxC minC : Nat) (st : List Chunk × Chunk)
    (p : Paragraph) (hp : p.text.length + minC ≤ maxC + 1)
    (hA : ∀ c ∈ st.1, minC ≤ c.text.length ∧ c.text.length ≤ maxC + 2)
    (hB : st.2.text.length ≤ maxC + 2) :
    (∀ c ∈ (paraStep maxC minC st p).1,
      minC ≤ c.text.length ∧ c.text.length ≤ maxC + 2) ∧
    (paraStep maxC minC st p).2.text.length ≤ maxC + 2 := by
  by_cases hskip : pyStrip p.text = ""
  · rw [paraStep_skip maxC minC st p hskip]
    exact ⟨hA, hB⟩
  · unfold paraStep
    rw [if_neg hskip]
    by_cases hf : maxC < st.2.text.length + p.text.length ∧ minC ≤ st.2.text.length
    · simp only [if_pos hf]
      constructor
      · intro c hc
        rcases List.mem_append.mp hc with h | h
        · exact hA c h
        · rw [List.mem_singleton.mp h]
          exact ⟨hf.2, hB⟩
      · show (("" : String) ++ p.text).length ≤ maxC + 2
        rw [String.length_append]
        have h0 : ("" : String).length = 0 := rfl
        omega
    · simp only [if_neg hf]
      refine ⟨fun c hc => hA c hc, ?_⟩
      have hcase : st.2.text.length + p.text.length ≤ maxC ∨
          st.2.text.length < minC := by
        rcases Decidable.not_and_iff_or_not.mp hf with h | h
        · exact Or.inl (by omega)
        · exact Or.inr (by omega)
      have hsep : ("\n\n" : String).length = 2 := rfl
      by_cases hpage : st.2.page = none <;> by_cases hempty : st.2.text = "" <;>
        simp [hpage, hempty, String.length_append, hsep] <;>
        rcases hcase with h | h <;> omega

lemma paraRun_bounds (maxC minC : Nat) :
    ∀ (ps : List Paragraph) (st : List Chunk × Chunk),
      (∀ p ∈ ps, p.text.length + minC ≤ maxC + 1) →
      (∀ c ∈ st.1, minC ≤ c.text.length ∧ c.text.length ≤ maxC + 2) →
      st.2.text.length ≤ maxC + 2 →
      (∀ c ∈ (paraRun maxC minC st ps).1,
        minC ≤ c.text.length ∧ c.text.length ≤ maxC + 2) ∧
      (paraRun maxC minC st ps).2.text.length ≤ maxC + 2 := by
  intro ps
  induction ps with
  | nil => intro st _ hA hB; exact ⟨hA, hB⟩
  | cons p ps ih =>
    intro st hps hA hB
    have hstep := paraStep_bounds maxC minC st p
      (hps p (List.mem_cons_self p ps)) hA hB
    exact ih (paraStep maxC minC st p)
      (fun q hq => hps q (List.mem_cons_of_mem p hq)) hstep.1 hstep.2

lemma appendToLast_bounds (t : String) (lo hi : Nat) :
    ∀ l : List Chunk,
      (∀ c ∈ l, lo ≤ c.text.length ∧ c.text.length ≤ hi) →
      ∀ c ∈ appendToLast l t,
        lo ≤ c.text.length ∧ c.text.length ≤ hi + 2 + t.length := by
  intro l
  induction l with
  | nil => intro _ c hc; exact absurd hc (List.not_mem_nil c)
  | cons a l ih =>
    intro hl c hc
    cases l with
    | nil =>
      rcases List.mem_singleton.mp hc with rfl
      have ha := hl a (List.mem_cons_self a [])
      constructor
      · simp only [String.length_append]
        omega
      · simp only [String.length_append]
        have hsep : ("\n\n" : String).length = 2 := rfl
        rw [hsep]
        omega
    | cons d rest =>
      rcases List.mem_cons.mp hc with rfl | hmem
      · exact ⟨(hl c (List.mem_cons_self c _)).1,
          le_trans (hl c (List.mem_cons_self c _)).2 (by omega)⟩
      · exact ih (fun q hq => hl q (List.mem_cons_of_mem a hq)) c hmem

lemma paraStep_min (maxC minC : Nat) (st : List Chunk × Chunk) (p : Paragraph)
    (hA : ∀ c ∈ st.1, minC ≤ c.text.length) :
    ∀ c ∈ (paraStep maxC minC st p).1, minC ≤ c.text.length := by
  by_cases hskip : pyStrip p.text = ""
  · rw [paraStep_skip maxC minC st p hskip]
    exact hA
  · unfold paraStep
    rw [if_neg hskip]
    by_cases hf : maxC < st.2.text.length + p.text.length ∧ minC ≤ st.2.text.length
    · simp only [if_pos hf]
      intro c hc
      rcases List.mem_append.mp hc with h | h
      · exact hA c h
      · rw [List.mem_singleton.mp h]
        exact hf.2
    · simp only [if_neg hf]
      exact hA

lemma paraRun_min (maxC minC : Nat) :
    ∀ (ps : List Paragraph) (st : List Chunk × Chunk),
      (∀ c ∈ st.1, minC ≤ c.text.length) →
      ∀ c ∈ (paraRun maxC minC st ps).1, minC ≤ c.text.length := by
  intro ps
  induction ps with
  | nil => intro st hA; exact hA
  | cons p ps ih =>
    intro st hA
    exact ih (paraStep maxC minC st p) (paraStep_min maxC minC st p hA)

lemma appendToLast_min (lo : Nat) (t : String) :
    ∀ l : List Chunk,
      (∀ c ∈ l, lo ≤ c.text.length) →
      ∀ c ∈ appendToLast l t, lo ≤ c.text.length := by
  intro l
  induction l with
  | nil => intro _ c hc; exact absurd hc (List.not_mem_nil c)
  | cons a l ih =>
    intro hl c hc
    cases l with
    | nil =>
      rcases List.mem_singleton.mp hc with rfl
      have ha := hl a (List.mem_cons_self a [])
      simp only [String.length_append]
      omega
    | cons d rest =>
      rcases List.mem_cons.mp hc with rfl | hmem
      · exact hl c (List.mem_cons_self c _)
      · exact ih (fun q hq => hl q (List.mem_cons_of_mem a hq)) c hmem

lemma chunkParagraphs_min (maxC minC : Nat) (ps : List Paragraph)
    (hlen : 2 ≤ (chunkParagraphs maxC minC ps).length) :
    ∀ c ∈ chunkParagraphs maxC minC ps, minC ≤ c.text.length := by
  have hmin : ∀ c ∈ (paraState maxC minC ps).1, minC ≤ c.text.length :=
    paraRun_min maxC minC (sortByPage ps) ([], paraInit)
      (fun c hc => absurd hc (List.not_mem_nil c))
  have hchunks : chunkParagraphs maxC minC ps =
      paraFinish minC (paraState maxC minC ps) := rfl
  rw [hchunks] at hlen ⊢
  set st := paraState maxC minC ps
  unfold paraFinish at hlen ⊢
  by_cases h1 : st.2.text ≠ "" ∧ minC ≤ st.2.text.length
  · rw [if_pos h1] at hlen ⊢
    intro c hc
    rcases List.mem_append.mp hc with h | h
    · exact hmin c h
    · rw [List.mem_singleton.mp h]
      exact h1.2
  · rw [if_neg h1] at hlen ⊢
    by_cases h2 : st.2.text ≠ ""
    · rw [if_pos h2] at hlen ⊢
      by_cases h3 : st.1 = []
      · rw [if_pos h3] at hlen
        simp at hlen
      · rw [if_neg h3] at hlen ⊢
        exact appendToLast_min minC st.2.text st.1 hmin
    · rw [if_neg h2] at hlen ⊢
      exact hmin

lemma dropLast_appendToLast (t : String) :
    ∀ l : List Chunk, (appendToLast l t).dropLast = l.dropLast := by
  intro l
  induction l with
  | nil => rfl
  | cons a l ih =>
    cases l with
    | nil => rfl
    | cons d rest =>
      show (a :: appendToLast (d :: rest) t).dropLast = (a :: d :: rest).dropLast
      have hne : appendToLast (d :: rest) t ≠ [] :=
        appendToLast_ne_nil (d :: rest) t (by simp)
      rw [List.dropLast_cons_of_ne_nil hne, ih]
      rfl

/-- C2, amended: the min-side of the claim holds as stated and
unconditionally — every emitted chunk has at least `min_chunk_size`
characters unless it is the only chunk.  The max-side holds only in
weakened form: provided every paragraph is at most
`max_chunk_size - min_chunk_size + 1` characters long (an oversized
paragraph is copied into a chunk unsplit), every emitted chunk has at
most `max_chunk_size + min_chunk_size + 3` characters, every chunk other
than the last has at most `max_chunk_size + 2` (the `"\n\n"` separator
is not counted by the overflow check), and unless the trailing merge
actually occurred — a non-empty final buffer below `min_chunk_size` with
a previously emitted chunk — the last chunk too has at most
`max_chunk_size + 2`: only the merged trailing chunk may exceed that
bound. -/
theorem C2_chunk_size_bounds (maxC minC : Nat) (ps : List Paragraph) :
    (2 ≤ (chunkParagraphs maxC minC ps).length →
      ∀ c ∈ chunkParagraphs maxC minC ps, minC ≤ c.text.length) ∧
    ((∀ p ∈ ps, p.text.length + minC ≤ maxC + 1) →
      (∀ c ∈ chunkParagraphs maxC minC ps,
        c.text.length ≤ maxC + minC + 3) ∧
      (∀ c ∈ (chunkParagraphs maxC minC ps).dropLast,
        c.text.length ≤ maxC + 2) ∧
      (¬ ((paraState maxC minC ps).2.text ≠ "" ∧
          (paraState maxC minC ps).2.text.length < minC ∧
          (paraState maxC minC ps).1 ≠ []) →
        ∀ c ∈ chunkParagraphs maxC minC ps, c.text.length ≤ maxC + 2)) := by
  refine ⟨chunkParagraphs_min maxC minC ps, ?_⟩
  intro H
  have Hs : ∀ p ∈ sortByPage ps, p.text.length + minC ≤ maxC + 1 :=
    fun p hp => H p ((mem_sortByPage p ps).mp hp)
  have hrun : (∀ c ∈ (paraState maxC minC ps).1,
      minC ≤ c.text.length ∧ c.text.length ≤ maxC + 2) ∧
      (paraState maxC minC ps).2.text.length ≤ maxC + 2 :=
    paraRun_bounds maxC minC (sortByPage ps) ([], paraInit) Hs
      (fun c hc => absurd hc (List.not_mem_nil c)) (by simp [paraInit])
  have hchunks : chunkParagraphs maxC minC ps =
      paraFinish minC (paraState maxC minC ps) := rfl
  rw [hchunks]
  set st := paraState maxC minC ps
  unfold paraFinish
  by_cases h1 : st.2.text ≠ "" ∧ minC ≤ st.2.text.length
  · rw [if_pos h1]
    refine ⟨?_, ?_, ?_⟩
    · intro c hc
      rcases List.mem_append.mp hc with h | h
      · exact le_trans (hrun.1 c h).2 (by omega)
      · rw [List.mem_singleton.mp h]
        exact le_trans hrun.2 (by omega)
    · intro c hc
      rw [List.dropLast_concat] at hc
      exact (hrun.1 c hc).2
    · intro _ c hc
      rcases List.mem_append.mp hc with h | h
      · exact (hrun.1 c h).2
      · rw [List.mem_singleton.mp h]
        exact hrun.2
  · rw [if_neg h1]
    by_cases h2 : st.2.text ≠ ""
    · rw [if_pos h2]
      have hlt : st.2.text.length < minC := by
        rcases Decidable.not_and_iff_or_not.mp h1 with h | h
        · exact absurd h2 h
        · omega
      by_cases h3 : st.1 = []
      · rw [if_pos h3]
        refine ⟨?_, ?_, ?_⟩
        · intro c hc
          rw [List.mem_singleton.mp hc]
          exact le_trans hrun.2 (by omega)
        · intro c hc
          exact absurd hc (by simp)
        · intro _ c hc
          rw [List.mem_singleton.mp hc]
          exact hrun.2
      · rw [if_neg h3]
        refine ⟨?_, ?_, ?_⟩
        · intro c hc
          have := appendToLast_bounds st.2.text minC (maxC + 2) st.1 hrun.1 c hc
          omega
        · intro c hc
          rw [dropLast_appendToLast] at hc
          exact (hrun.1 c (List.dropLast_subset st.1 hc)).2
        · intro hnm
          exact absurd ⟨h2, hlt, h3⟩ hnm
    · rw [if_neg h2]
      refine ⟨?_, ?_, ?_⟩
      · intro c hc
        exact le_trans (hrun.1 c hc).2 (by omega)
      · intro c hc
        exact (hrun.1 c (List.dropLast_subset st.1 hc)).2
      · intro _ c hc
        exact (hrun.1 c hc).2

/-- C2 witness: on `psC2` with `max = 5, min = 2` the result is the
2-chunk list `["ab\n\ncd", "ef"]`, no trailing merge occurs, and the
theorem applied there gives: both chunks have at least 2 characters
(min-side, no size hypothesis needed), the first chunk has at most 7
characters, and — since the merge did not occur — the last chunk does
too. -/
theorem C2_chunk_size_bounds_witness :
    (2 : Nat) ≤ (⟨"ef", some 1, "paragraph"⟩ : Chunk).text.length ∧
    (⟨"ab\n\ncd", some 1, "paragraph"⟩ : Chunk).text.length ≤ 5 + 2 ∧
    (⟨"ef", some 1, "paragraph"⟩ : Chunk).text.length ≤ 5 + 2 := by
  have h := C2_chunk_size_bounds 5 2 psC2
  refine ⟨?_, ?_, ?_⟩
  · exact h.1 (by decide) ⟨"ef", some 1, "paragraph"⟩ (by decide)
  · exact (h.2 (by decide)).2.1 ⟨"ab\n\ncd", some 1, "paragraph"⟩ (by decide)
  · exact (h.2 (by decide)).2.2 (by decide) ⟨"ef", some 1, "paragraph"⟩ (by decide)

/-- C8, amended: for a table whose boxed text exceeds `max_chunk_size`,
`_chunk_tables` splits it by rows into `⌈row_count / rows_per_chunk⌉`
chunks, where `rows_per_chunk = max(1, row_count // ((serialized_len //
max_chunk_size) + 1))` — the floor of `serialized_len / max_chunk_size`
plus one, which agrees with the claim's ceiling except when
`max_chunk_size` divides `serialized_len` — and the `k`-th chunk carries
the window `content[k·rpc : k·rpc + rpc]` labelled with its 1-based row
range and the total row count. -/
theorem C8_table_split (maxC : Nat) (t : TableRec)
    (h : maxC < (tableToText t.content).length) :
    (chunkOneTable maxC t).length =
      (t.row_count + rowsPerChunk maxC t - 1) / rowsPerChunk maxC t ∧
    (∀ k, k < (chunkOneTable maxC t).length →
      (chunkOneTable maxC t).get? k =
        some ⟨"Table (rows " ++ toString (k * rowsPerChunk maxC t + 1) ++ "-" ++
            toString (min (k * rowsPerChunk maxC t + rowsPerChunk maxC t)
              t.row_count) ++ " of " ++ toString t.row_count ++ "):\n" ++
            tableToText ((t.content.drop (k * rowsPerChunk maxC t)).take
              (rowsPerChunk maxC t)),
          some t.page, "table"⟩) := by
  constructor
  · simp [chunkOneTable, if_pos h, rangeStep]
  · intro k hk
    have hlen : (chunkOneTable maxC t).length =
        (t.row_count + rowsPerChunk maxC t - 1) / rowsPerChunk maxC t := by
      simp [chunkOneTable, if_pos h, rangeStep]
    rw [hlen] at hk
    simp [chunkOneTable, if_pos h, rangeStep, tableSliceChunk]
    exact ⟨k, List.getElem?_range hk, rfl⟩

/-- C8 witness: on `tblC8` with `max_chunk_size = 31` (boxed text of 62
characters) the code's `rows_per_chunk` is 1 and the split yields 4
chunks, the first labelled `rows 1-1 of 4`. -/
theorem C8_table_split_witness :
    (chunkOneTable 31 tblC8).length = 4 ∧
    (chunkOneTable 31 tblC8).get? 0 =
      some ⟨"Table (rows 1-1 of 4):\n+----+\n| ab |\n+----+", some 1, "table"⟩ := by
  have h := C8_table_split 31 tblC8 (by decide)
  constructor
  · rw [h.1]; decide
  · have h0 := h.2 0 (by rw [h.1]; decide)
    rw [h0]; decide

lemma splitChar_ne_nil (sep : Char) : ∀ cs : List Char, splitChar sep cs ≠ [] := by
  intro cs
  induction cs with
  | nil => simp [splitChar]
  | cons c cs ih =>
    unfold splitChar
    by_cases h : c = sep
    · simp [h]
    · rw [if_neg h]
      cases hsplit : splitChar sep cs with
      | nil => simp
      | cons l ls => simp

lemma splitChar_no_sep (sep : Char) :
    ∀ cs : List Char, sep ∉ cs → splitChar sep cs = [cs] := by
  intro cs
  induction cs with
  | nil => intro _; rfl
  | cons c cs ih =>
    intro h
    simp only [List.mem_cons, not_or] at h
    show splitChar sep (c :: cs) = [c :: cs]
    unfold splitChar
    rw [if_neg (fun hc => h.1 hc.symm), ih h.2]

lemma splitChar_append (sep : Char) :
    ∀ a b : List Char, sep ∉ a →
      splitChar sep (a ++ sep :: b) = a :: splitChar sep b := by
  intro a
  induction a with
  | nil =>
    intro b _
    show splitChar sep (sep :: b) = [] :: splitChar sep b
    simp [splitChar]
  | cons c a ih =>
    intro b h
    simp only [List.mem_cons, not_or] at h
    have hcs : ¬ c = sep := fun hc => h.1 hc.symm
    show splitChar sep (c :: (a ++ sep :: b)) = (c :: a) :: splitChar sep b
    simp only [splitChar, if_neg hcs, ih b h.2]

lemma joinWith_data_cons (sep x y : String) (xs : List String) :
    (joinWith sep (x :: y :: xs)).data =
      x.data ++ sep.data ++ (joinWith sep (y :: xs)).data := by
  show (x ++ sep ++ joinWith sep (y :: xs)).data = _
  rw [String.data_append, String.data_append]

lemma splitData :
    ∀ l : List String, l ≠ [] → (∀ s ∈ l, '\n' ∉ s.data) →
      splitChar '\n' (joinWith "\n" l).data = l.map String.data := by
  intro l
  induction l with
  | nil => intro hne _; exact absurd rfl hne
  | cons x l ih =>
    intro _ hnl
    cases l with
    | nil =>
      show splitChar '\n' x.data = [x.data]
      exact splitChar_no_sep '\n' x.data (hnl x (List.mem_cons_self x []))
    | cons y ys =>
      rw [joinWith_data_cons]
      have hsep : ("\n" : String).data = ['\n'] := rfl
      rw [hsep, List.append_assoc]
      show splitChar '\n' (x.data ++ '\n' :: (joinWith "\n" (y :: ys)).data) = _
      rw [splitChar_append '\n' x.data _ (hnl x (List.mem_cons_self x _)),
        ih (by simp) (fun s hs => hnl s (List.mem_cons_of_mem x hs))]
      rfl

lemma mem_joinWith_data (sep : String) :
    ∀ (l : List String) (c : Char), c ∈ (joinWith sep l).data →
      c ∈ sep.data ∨ ∃ s ∈ l, c ∈ s.data := by
  intro l
  induction l with
  | nil => intro c hc; exact absurd hc (List.not_mem_nil c)
  | cons x l ih =>
    intro c hc
    cases l with
    | nil =>
      exact Or.inr ⟨x, List.mem_cons_self x [], hc⟩
    | cons y ys =>
      rw [joinWith_data_cons] at hc
      rcases List.mem_append.mp hc with hc | hc
      · rcases List.mem_append.mp hc with hc | hc
        · exact Or.inr ⟨x, List.mem_cons_self x _, hc⟩
        · exact Or.inl hc
      · rcases ih c hc with hc | ⟨s, hs, hcs⟩
        · exact Or.inl hc
        · exact Or.inr ⟨s, List.mem_cons_of_mem x hs, hcs⟩

lemma sepLine_head (ws : List Nat) :
    ∃ rest, (sepLine ws).data = '+' :: rest := by
  show ∃ rest, (("+" ++ joinWith "+" (ws.map fun w => ⟨List.replicate (w + 2) '-'⟩)) ++ "+").data = '+' :: rest
  rw [String.data_append, String.data_append]
  exact ⟨_, rfl⟩

lemma no_newline_sepLine (ws : List Nat) : '\n' ∉ (sepLine ws).data := by
  intro hmem
  show False
  have : ('\n' : Char) ∈ (("+" ++ joinWith "+" (ws.map fun w => ⟨List.replicate (w + 2) '-'⟩)) ++ "+").data := hmem
  rw [String.data_append, String.data_append] at this
  rcases List.mem_append.mp this with h | h
  · rcases List.mem_append.mp h with h | h
    · simp at h
    · rcases mem_joinWith_data "+" _ '\n' h with h | ⟨s, hs, hcs⟩
      · simp at h
      · obtain ⟨w, _, rfl⟩ := List.mem_map.mp hs
        have := List.eq_of_mem_replicate (hcs : ('\n' : Char) ∈ List.replicate (w + 2) '-')
        simp at this
  · simp at h

lemma rowLine_data (ws : List Nat) (row : List String) :
    (rowLine ws row).data = '|' :: (rowCells ws row).data := by
  show ("|" ++ rowCells ws row).data = _
  rw [String.data_append]
  rfl

lemma padRight_data (s : String) (w : Nat) :
    (padRight s w).data = s.data ++ List.replicate (w - s.data.length) ' ' := by
  show (s ++ (⟨List.replicate (w - s.data.length) ' '⟩ : String)).data = _
  rw [String.data_append]

lemma mem_rowCells :
    ∀ (row : List String) (ws : List Nat) (c : Char),
      c ∈ (rowCells ws row).data →
      c = ' ' ∨ c = '|' ∨ ∃ cell ∈ row, c ∈ cell.data := by
  intro row
  induction row with
  | nil =>
    intro ws c hc
    cases ws <;> exact absurd hc (List.not_mem_nil c)
  | cons cell row ih =>
    intro ws c hc
    cases ws with
    | nil => exact absurd hc (List.not_mem_nil c)
    | cons w ws =>
      have hc' : c ∈ ((" " ++ padRight cell w ++ " |" ++ rowCells ws row)).data := hc
      rw [String.data_append, String.data_append, String.data_append] at hc'
      rcases List.mem_append.mp hc' with h | h
      · rcases List.mem_append.mp h with h | h
        · rcases List.mem_append.mp h with h | h
          · simp at h
            exact Or.inl h
          · rw [padRight_data] at h
            rcases List.mem_append.mp h with h | h
            · exact Or.inr (Or.inr ⟨cell, List.mem_cons_self cell row, h⟩)
            · exact Or.inl (List.eq_of_mem_replicate h)
        · rcases List.mem_cons.mp h with h | h
          · exact Or.inl h
          · rcases List.mem_cons.mp h with h | h
            · exact Or.inr (Or.inl h)
            · exact absurd h (List.not_mem_nil c)
      · rcases ih ws c h with h | h | ⟨q, hq, hcq⟩
        · exact Or.inl h
        · exact Or.inr (Or.inl h)
        · exact Or.inr (Or.inr ⟨q, List.mem_cons_of_mem cell hq, hcq⟩)

lemma count_bar_rowCells :
    ∀ (row : List String) (ws : List Nat),
      (∀ cell ∈ row, '|' ∉ cell.data) →
      ((rowCells ws row).data).count '|' = min ws.length row.length := by
  intro row
  induction row with
  | nil =>
    intro ws _
    cases ws <;> simp [rowCells]
  | cons cell row ih =>
    intro ws hclean
    cases ws with
    | nil => simp [rowCells]
    | cons w ws =>
      have hdata : (rowCells (w :: ws) (cell :: row)).data =
          [' '] ++ (cell.data ++ List.replicate (w - cell.data.length) ' ') ++
            [' ', '|'] ++ (rowCells ws row).data := by
        show ((" " ++ padRight cell w ++ " |" ++ rowCells ws row)).data = _
        rw [String.data_append, String.data_append, String.data_append,
          padRight_data]
      rw [hdata]
      have hc0 : (cell.data).count '|' = 0 :=
        List.count_eq_zero.mpr (hclean cell (List.mem_cons_self cell row))
      have hih := ih ws (fun q hq => hclean q (List.mem_cons_of_mem cell hq))
      simp only [List.count_append, hih, hc0]
      have h1 : (([' '] : List Char)).count '|' = 0 := rfl
      have h2 : (([' ', '|'] : List Char)).count '|' = 1 := rfl
      have h3 : (List.replicate (w - cell.data.length) ' ').count '|' = 0 :=
        List.count_eq_zero.mpr (fun hmem => by
          have := List.eq_of_mem_replicate hmem
          simp at this)
      rw [h1, h2, h3]
      simp only [List.length_cons]
      omega

lemma no_newline_rowLine (ws : List Nat) (row : List String)
    (hclean : ∀ cell ∈ row, '\n' ∉ cell.data) :
    '\n' ∉ (rowLine ws row).data := by
  rw [rowLine_data]
  intro hmem
  rcases List.mem_cons.mp hmem with h | h
  · simp at h
  · rcases mem_rowCells row ws '\n' h with h | h | ⟨cell, hcell, hmem2⟩
    · simp at h
    · simp at h
    · exact hclean cell hcell hmem2

lemma rowLine_filter_true (ws : List Nat) (row : List String) :
    (((rowLine ws row).data).head? == some '|') = true := by
  rw [rowLine_data]
  rfl

lemma sepLine_filter_false (ws : List Nat) :
    (((sepLine ws).data).head? == some '|') = false := by
  obtain ⟨rest, h⟩ := sepLine_head ws
  rw [h]
  rfl

lemma updWidths_length :
    ∀ (ws : List Nat) (row : List String), (updWidths ws row).length = ws.length := by
  intro ws
  induction ws with
  | nil => intro row; cases row <;> rfl
  | cons w ws ih =>
    intro row
    cases row with
    | nil => rfl
    | cons c cs => simpa [updWidths] using ih cs

lemma foldl_updWidths_length :
    ∀ (rows : List (List String)) (ws : List Nat),
      (rows.foldl updWidths ws).length = ws.length := by
  intro rows
  induction rows with
  | nil => intro ws; rfl
  | cons row rows ih =>
    intro ws
    rw [List.foldl_cons, ih, updWidths_length]

lemma colWidths_length (content : List (List String)) :
    (colWidths content).length = (content.headD []).length := by
  unfold colWidths
  rw [foldl_updWidths_length, List.length_replicate]

lemma filter_table_lines (ws : List Nat) :
    ∀ rows : List (List String),
      ((sepLine ws :: rows.flatMap (fun row => [rowLine ws row, sepLine ws])).map
        String.data).filter (fun l => l.head? == some '|') =
      rows.map (fun row => (rowLine ws row).data) := by
  intro rows
  induction rows with
  | nil => simp [sepLine_filter_false]
  | cons row rows ih =>
    simp only [List.flatMap_cons, List.map_cons, List.cons_append,
      List.filter_cons, sepLine_filter_false, rowLine_filter_true,
      List.nil_append] at ih ⊢
    simpa using ih

/-- C9, amended: for every non-empty rectangular cell grid whose cells
contain neither a newline nor a `'|'` character, parsing the boxed text
produced by `_table_to_text` recovers the grid's dimensions: the
newline-separated lines beginning with `'|'` number exactly the grid's
rows, and the `'|'` delimiters of the first such line number exactly the
grid's columns plus one. -/
theorem C9_table_roundtrip (content : List (List String)) (r c : Nat)
    (hr : content.length = r) (hne : content ≠ [])
    (hc : ∀ row ∈ content, row.length = c)
    (hclean : ∀ row ∈ content, ∀ cell ∈ row,
      '\n' ∉ cell.data ∧ '|' ∉ cell.data) :
    parseTableDims (tableToText content) = (r, c) := by
  obtain ⟨r0, rest, rfl⟩ : ∃ r0 rest, content = r0 :: rest := by
    cases content with
    | nil => exact absurd rfl hne
    | cons a b => exact ⟨a, b, rfl⟩
  have htt : tableToText (r0 :: rest) = joinWith "\n"
      (sepLine (colWidths (r0 :: rest)) ::
        (r0 :: rest).flatMap (fun row =>
          [rowLine (colWidths (r0 :: rest)) row, sepLine (colWidths (r0 :: rest))])) := rfl
  have hLnl : ∀ s ∈ (sepLine (colWidths (r0 :: rest)) ::
      (r0 :: rest).flatMap (fun row =>
        [rowLine (colWidths (r0 :: rest)) row, sepLine (colWidths (r0 :: rest))])),
      '\n' ∉ s.data := by
    intro s hs
    rcases List.mem_cons.mp hs with rfl | hs
    · exact no_newline_sepLine _
    · obtain ⟨row, hrow, hsmem⟩ := List.mem_flatMap.mp hs
      rcases List.mem_cons.mp hsmem with rfl | hsmem
      · exact no_newline_rowLine _ row (fun cell hcell => (hclean row hrow cell hcell).1)
      · rcases List.mem_cons.mp hsmem with rfl | hsmem
        · exact no_newline_sepLine _
        · exact absurd hsmem (List.not_mem_nil s)
  have hdim : parseTableDims (tableToText (r0 :: rest)) =
      (((splitChar '\n' (tableToText (r0 :: rest)).data).filter
          (fun l => l.head? == some '|')).length,
        (((splitChar '\n' (tableToText (r0 :: rest)).data).filter
          (fun l => l.head? == some '|')).headD []).count '|' - 1) := rfl
  rw [hdim]
  have hsplit : splitChar '\n' (tableToText (r0 :: rest)).data =
      (sepLine (colWidths (r0 :: rest)) ::
        (r0 :: rest).flatMap (fun row =>
          [rowLine (colWidths (r0 :: rest)) row,
            sepLine (colWidths (r0 :: rest))])).map String.data := by
    rw [htt]
    exact splitData _ (by simp) hLnl
  rw [hsplit, filter_table_lines]
  have hlen : ((r0 :: rest).map
      (fun row => (rowLine (colWidths (r0 :: rest)) row).data)).length = r := by
    rw [List.length_map]
    exact hr
  have hws : (colWidths (r0 :: rest)).length = c := by
    rw [colWidths_length]
    exact hc r0 (List.mem_cons_self r0 rest)
  have hhead : (((r0 :: rest).map
      (fun row => (rowLine (colWidths (r0 :: rest)) row).data)).headD []) =
      (rowLine (colWidths (r0 :: rest)) r0).data := rfl
  rw [hlen, hhead, rowLine_data]
  have hcount : ((rowCells (colWidths (r0 :: rest)) r0).data).count '|' = c := by
    rw [count_bar_rowCells r0 (colWidths (r0 :: rest))
      (fun cell hcell => (hclean r0 (List.mem_cons_self r0 rest) cell hcell).2)]
    rw [hws, hc r0 (List.mem_cons_self r0 rest)]
    exact Nat.min_self c
  rw [List.count_cons]
  have hne2 : (('|' : Char) == '|') = true := rfl
  rw [hne2, hcount]
  simp

/-- C9 witness: on the 2-by-2 grid `gridC9` with clean cells, parsing the
boxed text recovers `(2, 2)`. -/
theorem C9_table_roundtrip_witness :
    parseTableDims (tableToText gridC9) = (2, 2) :=
  C9_table_roundtrip gridC9 2 2 (by decide) (by decide) (by decide) (by decide)

end OcrLab
